import Mathlib

/-!
Verification of the real-time coordination core of the crossword-assist agent:
ring-buffered audio fan-out (`audio_stream.py`), streaming-transcriber mute and
reconnect/backoff logic (`google_transcriber.py`), the emotion span tracker
(`emotion_detector.py`), and the turn-orchestration loop (`main.py`).

Samples are modelled as integers, timestamps as rationals, and the numpy ring
buffer as an index-to-value map of fixed capacity together with explicit slice
reads and slice assignments, mirroring the Python source line by line.
-/

namespace CrosswordHRI

/-! ### Ring audio buffer (`src/audio/audio_stream.py`) -/

/-- State of `AudioStream`: the fixed-capacity ring buffer (an index-to-sample
map, only indices `< capacity` are meaningful), the wrap-around write index,
the monotone total of samples ever written, and the consumer-id to last-read
cursor dictionary (`last_reads`), modelled as an association list. -/
structure AudioStream where
  capacity : Nat
  ring_buffer : Nat → Int
  write_index : Nat
  total_written : Nat
  last_reads : List (Nat × Nat)

/-- Association-list lookup, mirroring Python dict read `d[k]` / `k in d`. -/
def lookupC (l : List (Nat × Nat)) (k : Nat) : Option Nat :=
  (l.find? (fun p => p.1 == k)).map (fun p => p.2)

/-- Association-list write `d[k] = v`: replace the first binding of `k`,
or append a fresh binding when `k` is absent. -/
def setC : List (Nat × Nat) → Nat → Nat → List (Nat × Nat)
  | [], k, v => [(k, v)]
  | (k1, v1) :: rest, k, v =>
      if k1 = k then (k, v) :: rest else (k1, v1) :: setC rest k v

/-- Slice assignment `ring[start : start + data.length] = data` on the
index-to-value model of the numpy ring array. -/
def sliceAssign (ring : Nat → Int) (start : Nat) (data : List Int) : Nat → Int :=
  fun p => if start ≤ p ∧ p < start + data.length then data.getD (p - start) 0 else ring p

/-- Slice read `ring[a:b]` of the ring array (for `a ≤ b`). -/
def ringSlice (ring : Nat → Int) (a b : Nat) : List Int :=
  (List.range (b - a)).map (fun k => ring (a + k))

/-- Fresh `AudioStream.__init__` state: zeroed ring of the given capacity,
both cursors zero, no consumers yet. -/
def mkAudio (capacity : Nat) : AudioStream :=
  { capacity := capacity
    ring_buffer := fun _ => 0
    write_index := 0
    total_written := 0
    last_reads := [] }

/-- One run of `AudioStream._audio_callback` with chunk `indata`: a chunk
longer than the capacity keeps only its last `capacity` samples, then the
chunk is copied at the write index, wrapping at capacity; the write index
advances modulo capacity and `total_written` by the (clipped) frame count. -/
def audio_callback (st : AudioStream) (indata : List Int) : AudioStream :=
  let indata :=
    if indata.length > st.capacity then indata.drop (indata.length - st.capacity) else indata
  let num_frames := indata.length
  let end_index := st.write_index + num_frames
  let ring :=
    if end_index ≤ st.capacity then
      sliceAssign st.ring_buffer st.write_index indata
    else
      let first_part := st.capacity - st.write_index
      sliceAssign (sliceAssign st.ring_buffer st.write_index (indata.take first_part))
        0 (indata.drop first_part)
  { st with
      ring_buffer := ring
      write_index := (st.write_index + num_frames) % st.capacity
      total_written := st.total_written + num_frames }

/-- `AudioStream.register_consumer`: set the consumer cursor to 0. -/
def register_consumer (st : AudioStream) (consumer_id : Nat) : AudioStream :=
  { st with last_reads := setC st.last_reads consumer_id 0 }

/-- `AudioStream.get_new_audio_chunks`: return the consumer's unread samples
(clipped to the most recent `capacity` when it fell behind) and advance its
cursor to `total_written`; an unknown consumer gets an empty result and the
state is untouched. -/
def get_new_audio_chunks (st : AudioStream) (consumer_id : Nat) :
    List Int × AudioStream :=
  match lookupC st.last_reads consumer_id with
  | none => ([], st)
  | some lastRead =>
      let new_count : Int := (st.total_written : Int) - (lastRead : Int)
      if new_count ≤ 0 then ([], st)
      else
        let lastRead :=
          if new_count > (st.capacity : Int) then st.total_written - st.capacity
          else lastRead
        let start_index := lastRead % st.capacity
        let end_index := st.total_written % st.capacity
        let new_data :=
          if start_index < end_index then
            ringSlice st.ring_buffer start_index end_index
          else
            ringSlice st.ring_buffer start_index st.capacity ++
              ringSlice st.ring_buffer 0 end_index
        (new_data, { st with last_reads := setC st.last_reads consumer_id st.total_written })

/-- Tail of a write chunk actually retained by `_audio_callback`: the last
`capacity` samples when the chunk is longer than the capacity. -/
def effTail (capacity : Nat) (w : List Int) : List Int :=
  if w.length > capacity then w.drop (w.length - capacity) else w

/-- The logical PCM stream recorded by a sequence of capture callbacks:
concatenation of the retained tails of the chunks. -/
def streamOf (capacity : Nat) (ws : List (List Int)) : List Int :=
  (ws.map (effTail capacity)).flatten

/-- Value of the zero-padded stream at logical position `m`: positions below
`capacity` read the initial zero fill, the rest read the written stream. -/
def pad (capacity : Nat) (S : List Int) (m : Nat) : Int :=
  (List.replicate capacity (0 : Int) ++ S).getD m 0

/-- Ring-buffer representation invariant relating a buffer state to the
logical stream `S` it has absorbed. -/
structure RingInv (st : AudioStream) (S : List Int) : Prop where
  cap_pos : 0 < st.capacity
  tw : st.total_written = S.length
  wi : st.write_index = S.length % st.capacity
  ring : ∀ m, S.length ≤ m → m < S.length + st.capacity →
    st.ring_buffer (m % st.capacity) = pad st.capacity S m
  cursors : ∀ cid c, lookupC st.last_reads cid = some c → c ≤ S.length

/-- A trace operation against the audio buffer: a capture-callback write, a
consumer registration, or a consumer read. -/
inductive AudioOp where
  | write (w : List Int)
  | register (cid : Nat)
  | read (cid : Nat)

/-- Apply one trace operation to the buffer state (reads keep only the state
effect; their return value is inspected separately). -/
def applyAudioOp (st : AudioStream) : AudioOp → AudioStream
  | .write w => audio_callback st w
  | .register cid => register_consumer st cid
  | .read cid => (get_new_audio_chunks st cid).2

/-- Run a trace of operations from a fresh buffer of the given capacity. -/
def runAudio (capacity : Nat) (ops : List AudioOp) : AudioStream :=
  ops.foldl applyAudioOp (mkAudio capacity)

/-- The write chunks of a trace. -/
def writesOf (ops : List AudioOp) : List (List Int) :=
  ops.filterMap (fun op => match op with | .write w => some w | _ => none)

/-- The logical PCM stream recorded over a whole trace. -/
def audioStreamOf (capacity : Nat) (ops : List AudioOp) : List Int :=
  streamOf capacity (writesOf ops)

theorem lookupC_setC (l : List (Nat × Nat)) (k v k2 : Nat) :
    lookupC (setC l k v) k2 = if k2 = k then some v else lookupC l k2 := by
  induction l with
  | nil =>
      by_cases h : k2 = k
      · subst h; simp [setC, lookupC, List.find?]
      · have hb : (k == k2) = false := beq_eq_false_iff_ne.mpr (fun hh => h hh.symm)
        simp [setC, lookupC, List.find?, hb, h]
  | cons hd tl ih =>
      obtain ⟨k1, v1⟩ := hd
      by_cases h1 : k1 = k
      · subst h1
        by_cases h2 : k2 = k1
        · subst h2; simp [setC, lookupC, List.find?]
        · have hb : (k1 == k2) = false := beq_eq_false_iff_ne.mpr (fun hh => h2 hh.symm)
          simp [setC, lookupC, List.find?, hb, h2]
      · rw [setC, if_neg h1]
        by_cases h2 : k2 = k1
        · subst h2
          simp [lookupC, List.find?, h1]
        · have hb : (k1 == k2) = false := beq_eq_false_iff_ne.mpr (fun hh => h2 hh.symm)
          simpa [lookupC, List.find?, hb] using ih

theorem effTail_length_le (capacity : Nat) (w : List Int) :
    (effTail capacity w).length ≤ capacity := by
  unfold effTail
  by_cases h : w.length > capacity <;> simp [h] <;> omega

theorem pad_ge (capacity : Nat) (S : List Int) (j : Nat) :
    pad capacity S (capacity + j) = S.getD j 0 := by
  unfold pad
  rw [List.getD_eq_getElem?_getD, List.getD_eq_getElem?_getD,
    List.getElem?_append_right (by simp)]
  simp

theorem pad_append_left (capacity : Nat) (S e : List Int) (m : Nat)
    (h : m < capacity + S.length) :
    pad capacity (S ++ e) m = pad capacity S m := by
  unfold pad
  rw [List.getD_eq_getElem?_getD, List.getD_eq_getElem?_getD, ← List.append_assoc,
    List.getElem?_append]
  simp only [List.length_append, List.length_replicate]
  rw [if_pos (by omega)]

theorem pad_append_right (capacity : Nat) (S e : List Int) (k : Nat) :
    pad capacity (S ++ e) (capacity + S.length + k) = e.getD k 0 := by
  unfold pad
  rw [List.getD_eq_getElem?_getD, List.getD_eq_getElem?_getD, ← List.append_assoc,
    List.getElem?_append_right (by simp)]
  simp

theorem ringInv_mkAudio (capacity : Nat) (hcap : 0 < capacity) :
    RingInv (mkAudio capacity) [] := by
  refine ⟨hcap, rfl, by simp [mkAudio], ?_, ?_⟩
  · intro m _ hm2
    simp only [mkAudio, pad, List.append_nil]
    rw [List.getD_eq_getElem?_getD]
    have : m < capacity := by simpa [mkAudio] using hm2
    simp [List.getElem?_replicate, this]
  · intro cid c h
    simp [lookupC, mkAudio] at h

theorem ringInv_register (st : AudioStream) (S : List Int) (cid : Nat)
    (inv : RingInv st S) : RingInv (register_consumer st cid) S := by
  refine ⟨inv.cap_pos, inv.tw, inv.wi, inv.ring, ?_⟩
  intro cid2 c h
  simp only [register_consumer] at h
  rw [lookupC_setC] at h
  by_cases hc : cid2 = cid
  · simp [hc] at h; omega
  · rw [if_neg hc] at h; exact inv.cursors cid2 c h

theorem ringInv_read (st : AudioStream) (S : List Int) (cid : Nat)
    (inv : RingInv st S) : RingInv ((get_new_audio_chunks st cid).2) S := by
  unfold get_new_audio_chunks
  cases hl : lookupC st.last_reads cid with
  | none => exact inv
  | some c =>
      simp only
      by_cases h0 : (st.total_written : Int) - (c : Int) ≤ 0
      · simpa [h0] using inv
      · rw [if_neg h0]
        refine ⟨inv.cap_pos, inv.tw, inv.wi, inv.ring, ?_⟩
        intro cid2 c2 h
        simp only at h
        rw [lookupC_setC] at h
        by_cases hc : cid2 = cid
        · have htw := inv.tw
          simp [hc] at h
          omega
        · rw [if_neg hc] at h; exact inv.cursors cid2 c2 h

theorem getD_take (l : List Int) (a i : Nat) (h : i < a) :
    (l.take a).getD i 0 = l.getD i 0 := by
  rw [List.getD_eq_getElem?_getD, List.getD_eq_getElem?_getD, List.getElem?_take]
  simp [h]

theorem getD_drop (l : List Int) (a i : Nat) :
    (l.drop a).getD i 0 = l.getD (a + i) 0 := by
  rw [List.getD_eq_getElem?_getD, List.getD_eq_getElem?_getD, List.getElem?_drop]

theorem mod_ne_window (cap tw k n m : Nat) (hk : k < n) (hn : n ≤ cap)
    (h1 : tw + n ≤ m) (h2 : m < tw + cap) : m % cap ≠ (tw + k) % cap := by
  intro h
  have hle : tw + k ≤ m := by omega
  have hdvd : cap ∣ m - (tw + k) := (Nat.modEq_iff_dvd' hle).mp h.symm
  have hpos : 0 < m - (tw + k) := by omega
  have := Nat.le_of_dvd hpos hdvd
  omega

theorem ringInv_callback (st : AudioStream) (S : List Int) (w : List Int)
    (inv : RingInv st S) : RingInv (audio_callback st w) (S ++ effTail st.capacity w) := by
  obtain ⟨hcap, htw, hwi, hring, hcur⟩ := inv
  have hn : (effTail st.capacity w).length ≤ st.capacity := effTail_length_le st.capacity w
  have hcb : audio_callback st w =
      { st with
        ring_buffer :=
          if st.write_index + (effTail st.capacity w).length ≤ st.capacity then
            sliceAssign st.ring_buffer st.write_index (effTail st.capacity w)
          else
            sliceAssign (sliceAssign st.ring_buffer st.write_index
              ((effTail st.capacity w).take (st.capacity - st.write_index)))
              0 ((effTail st.capacity w).drop (st.capacity - st.write_index))
        write_index := (st.write_index + (effTail st.capacity w).length) % st.capacity
        total_written := st.total_written + (effTail st.capacity w).length } := rfl
  set e := effTail st.capacity w with he
  set n := e.length with hne
  rw [hcb]
  have hwilt : st.write_index < st.capacity := by
    rw [hwi]; exact Nat.mod_lt _ hcap
  constructor
  · exact hcap
  · simp [htw]
  · simp only [List.length_append]
    rw [hwi, Nat.mod_add_mod]
  · intro m hm1 hm2
    simp only [List.length_append] at hm1 hm2
    have hplt : m % st.capacity < st.capacity := Nat.mod_lt _ hcap
    by_cases hm : m < S.length + st.capacity
    · -- positions not overwritten by this chunk: old ring values stand
      have hpad : pad st.capacity (S ++ e) m = pad st.capacity S m :=
        pad_append_left _ _ _ _ (by omega)
      have hold : st.ring_buffer (m % st.capacity) = pad st.capacity S m :=
        hring m (by omega) (by omega)
      by_cases hb : st.write_index + n ≤ st.capacity
      · rw [if_pos hb]
        have hnot : ¬ (st.write_index ≤ m % st.capacity ∧
            m % st.capacity < st.write_index + n) := by
          rintro ⟨ha, hbnd⟩
          have hk : m % st.capacity - st.write_index < n := by omega
          have heq : (S.length + (m % st.capacity - st.write_index)) % st.capacity
              = m % st.capacity := by
            rw [← Nat.mod_add_mod, ← hwi,
              show st.write_index + (m % st.capacity - st.write_index) = m % st.capacity
                from by omega,
              Nat.mod_eq_of_lt hplt]
          exact mod_ne_window st.capacity S.length _ n m hk hn (by omega) (by omega) heq.symm
        simp only [sliceAssign, ← hne]
        rw [if_neg hnot, hpad]
        exact hold
      · rw [if_neg hb]
        have hfirst : st.capacity - st.write_index < n := by omega
        have hlen1 : (e.take (st.capacity - st.write_index)).length
            = st.capacity - st.write_index := by
          rw [List.length_take]; omega
        have hlen2 : (e.drop (st.capacity - st.write_index)).length
            = n - (st.capacity - st.write_index) := by
          rw [List.length_drop]
        have hnot2 : ¬ (0 ≤ m % st.capacity ∧
            m % st.capacity < 0 + (e.drop (st.capacity - st.write_index)).length) := by
          rintro ⟨-, hbnd⟩
          rw [hlen2, Nat.zero_add] at hbnd
          have hk : m % st.capacity + (st.capacity - st.write_index) < n := by omega
          have heq : (S.length + (m % st.capacity + (st.capacity - st.write_index)))
              % st.capacity = m % st.capacity := by
            rw [← Nat.mod_add_mod, ← hwi,
              show st.write_index + (m % st.capacity + (st.capacity - st.write_index))
                  = m % st.capacity + st.capacity from by omega,
              Nat.add_mod_right, Nat.mod_eq_of_lt hplt]
          exact mod_ne_window st.capacity S.length _ n m hk hn (by omega) (by omega) heq.symm
        have hnot1 : ¬ (st.write_index ≤ m % st.capacity ∧
            m % st.capacity < st.write_index + (e.take (st.capacity - st.write_index)).length) := by
          rintro ⟨ha, hbnd⟩
          rw [hlen1] at hbnd
          have hk : m % st.capacity - st.write_index < n := by omega
          have heq : (S.length + (m % st.capacity - st.write_index)) % st.capacity
              = m % st.capacity := by
            rw [← Nat.mod_add_mod, ← hwi,
              show st.write_index + (m % st.capacity - st.write_index) = m % st.capacity
                from by omega,
              Nat.mod_eq_of_lt hplt]
          exact mod_ne_window st.capacity S.length _ n m hk hn (by omega) (by omega) heq.symm
        simp only [sliceAssign]
        rw [if_neg hnot2, if_neg hnot1, hpad]
        exact hold
    · -- positions overwritten by this chunk: they carry the new samples
      set k := m - S.length - st.capacity with hkdef
      have hk : k < n := by omega
      have hmk : m = st.capacity + S.length + k := by omega
      have hpad : pad st.capacity (S ++ e) m = e.getD k 0 := by
        rw [hmk]; exact pad_append_right _ _ _ _
      by_cases hb : st.write_index + n ≤ st.capacity
      · rw [if_pos hb]
        have hp : m % st.capacity = st.write_index + k := by
          rw [show m = S.length + k + st.capacity from by omega, Nat.add_mod_right,
            ← Nat.mod_add_mod, ← hwi, Nat.mod_eq_of_lt (by omega)]
        simp only [sliceAssign, ← hne]
        rw [if_pos (by omega), hpad, hp]
        congr 1
        omega
      · rw [if_neg hb]
        have hfirst : st.capacity - st.write_index < n := by omega
        have hlen1 : (e.take (st.capacity - st.write_index)).length
            = st.capacity - st.write_index := by
          rw [List.length_take]; omega
        have hlen2 : (e.drop (st.capacity - st.write_index)).length
            = n - (st.capacity - st.write_index) := by
          rw [List.length_drop]
        by_cases hkf : k < st.capacity - st.write_index
        · -- the part written before the wrap point
          have hp : m % st.capacity = st.write_index + k := by
            rw [show m = S.length + k + st.capacity from by omega, Nat.add_mod_right,
              ← Nat.mod_add_mod, ← hwi, Nat.mod_eq_of_lt (by omega)]
          simp only [sliceAssign]
          rw [if_neg (by rw [hlen2]; omega), if_pos (by rw [hlen1]; omega), hp]
          rw [show st.write_index + k - st.write_index = k from by omega]
          rw [getD_take _ _ _ hkf, hpad]
        · -- the wrapped-around part written at the start of the ring
          have hp : m % st.capacity = k - (st.capacity - st.write_index) := by
            rw [show m = S.length + k + st.capacity from by omega, Nat.add_mod_right,
              ← Nat.mod_add_mod, ← hwi,
              show st.write_index + k
                  = st.capacity + (k - (st.capacity - st.write_index)) from by omega,
              Nat.add_mod_left, Nat.mod_eq_of_lt (by omega)]
          simp only [sliceAssign]
          rw [if_pos (by rw [hlen2]; omega), hp]
          rw [show k - (st.capacity - st.write_index) - 0
              = k - (st.capacity - st.write_index) from by omega]
          rw [getD_drop, hpad]
          congr 1
          omega
  · intro cid c h
    simp only [List.length_append]
    have := hcur cid c h
    omega

theorem ring_elem_stream (ring : Nat → Int) (cap : Nat) (S : List Int)
    (hring : ∀ m, S.length ≤ m → m < S.length + cap → ring (m % cap) = pad cap S m)
    (cc j : Nat) (h1 : S.length ≤ cc + cap) (hj : cc + j < S.length) :
    ring ((cc + j) % cap) = S.getD (cc + j) 0 := by
  have h := hring (cc + j + cap) (by omega) (by omega)
  rw [Nat.add_mod_right] at h
  rw [h, show cc + j + cap = cap + (cc + j) from by omega, pad_ge]

theorem range_map_getD (S : List Int) (cc : Nat) (h : cc ≤ S.length) :
    (List.range (S.length - cc)).map (fun j => S.getD (cc + j) 0) = S.drop cc := by
  apply List.ext_getElem
  · simp
  · intro i h1 h2
    rw [List.getElem_map, List.getElem_range, List.getElem_drop]
    have hlt : cc + i < S.length := by
      simp only [List.length_map, List.length_range] at h1
      omega
    rw [List.getD_eq_getElem?_getD, List.getElem?_eq_getElem hlt]
    rfl

theorem read_slice (ring : Nat → Int) (cap : Nat) (S : List Int) (hcap : 0 < cap)
    (hring : ∀ m, S.length ≤ m → m < S.length + cap → ring (m % cap) = pad cap S m)
    (cc : Nat) (h1 : S.length ≤ cc + cap) (h2 : cc < S.length) :
    (if cc % cap < S.length % cap then
        ringSlice ring (cc % cap) (S.length % cap)
      else
        ringSlice ring (cc % cap) cap ++ ringSlice ring 0 (S.length % cap))
      = S.drop cc := by
  have hslt : cc % cap < cap := Nat.mod_lt _ hcap
  have heIlt : S.length % cap < cap := Nat.mod_lt _ hcap
  have heI : S.length % cap = (cc % cap + (S.length - cc)) % cap := by
    rw [Nat.mod_add_mod]
    congr 1
    omega
  by_cases hbr : cc % cap < S.length % cap
  · have hlt : cc % cap + (S.length - cc) < cap := by
      by_contra hge
      push_neg at hge
      have hiq : S.length % cap = cc % cap + (S.length - cc) - cap := by
        rw [heI, show cc % cap + (S.length - cc)
            = (cc % cap + (S.length - cc) - cap) + cap from by omega,
          Nat.add_mod_right, Nat.mod_eq_of_lt (by omega)]
        omega
      omega
    have heq : S.length % cap = cc % cap + (S.length - cc) := by
      rw [heI, Nat.mod_eq_of_lt hlt]
    rw [if_pos hbr]
    unfold ringSlice
    rw [heq, show cc % cap + (S.length - cc) - cc % cap = S.length - cc from by omega]
    rw [← range_map_getD S cc (by omega)]
    apply List.map_congr_left
    intro j hj
    rw [List.mem_range] at hj
    have hmod : (cc + j) % cap = cc % cap + j := by
      rw [← Nat.mod_add_mod, Nat.mod_eq_of_lt (by omega)]
    rw [← hmod]
    exact ring_elem_stream ring cap S hring cc j h1 (by omega)
  · push_neg at hbr
    have hge : cap ≤ cc % cap + (S.length - cc) := by
      by_contra hlt
      push_neg at hlt
      have hiq : S.length % cap = cc % cap + (S.length - cc) := by
        rw [heI, Nat.mod_eq_of_lt hlt]
      omega
    have heq : S.length % cap = cc % cap + (S.length - cc) - cap := by
      rw [heI, show cc % cap + (S.length - cc)
          = (cc % cap + (S.length - cc) - cap) + cap from by omega,
        Nat.add_mod_right, Nat.mod_eq_of_lt (by omega)]
      omega
    rw [if_neg (by omega)]
    unfold ringSlice
    rw [← range_map_getD S cc (by omega)]
    rw [show S.length - cc = (cap - cc % cap) + S.length % cap from by omega]
    rw [List.range_add, List.map_append, List.map_map]
    congr 1
    · apply List.map_congr_left
      intro j hj
      rw [List.mem_range] at hj
      have hmod : (cc + j) % cap = cc % cap + j := by
        rw [← Nat.mod_add_mod, Nat.mod_eq_of_lt (by omega)]
      rw [← hmod]
      exact ring_elem_stream ring cap S hring cc j h1 (by omega)
    · apply List.map_congr_left
      intro j hj
      rw [List.mem_range] at hj
      have hmod : (cc + (cap - cc % cap + j)) % cap = j := by
        rw [← Nat.mod_add_mod, show cc % cap + (cap - cc % cap + j) = cap + j from by omega,
          Nat.add_mod_left, Nat.mod_eq_of_lt (by omega)]
      simp only [Function.comp_apply]
      rw [Nat.zero_add]
      conv_lhs => rw [← hmod]
      exact ring_elem_stream ring cap S hring cc (cap - cc % cap + j) h1 (by omega)

theorem get_new_audio_spec (st : AudioStream) (S : List Int) (inv : RingInv st S)
    (cid c : Nat) (hc : lookupC st.last_reads cid = some c) :
    (get_new_audio_chunks st cid).1 = S.drop (max c (S.length - st.capacity)) ∧
    lookupC (get_new_audio_chunks st cid).2.last_reads cid = some S.length := by
  obtain ⟨hcap, htw, hwi, hring, hcur⟩ := inv
  have hcle : c ≤ S.length := hcur cid c hc
  unfold get_new_audio_chunks
  rw [hc]
  simp only
  by_cases h0 : (st.total_written : Int) - (c : Int) ≤ 0
  · rw [if_pos h0]
    have hceq : c = S.length := by omega
    constructor
    · rw [Nat.max_eq_left (by omega), hceq, List.drop_length]
    · rw [hc, hceq]
  · rw [if_neg h0]
    have hclt : c < S.length := by omega
    have hif : (if (st.total_written : Int) - (c : Int) > (st.capacity : Int) then
        st.total_written - st.capacity else c) = max c (S.length - st.capacity) := by
      split_ifs with hbig
      · omega
      · omega
    rw [hif, htw]
    constructor
    · exact read_slice st.ring_buffer st.capacity S hcap hring _ (by omega) (by omega)
    · rw [lookupC_setC, if_pos rfl]

theorem ringInv_foldl (st : AudioStream) (S : List Int) (ops : List AudioOp)
    (inv : RingInv st S) :
    RingInv (ops.foldl applyAudioOp st) (S ++ streamOf st.capacity (writesOf ops)) ∧
      (ops.foldl applyAudioOp st).capacity = st.capacity := by
  induction ops generalizing st S with
  | nil => simpa [streamOf, writesOf] using inv
  | cons op ops ih =>
      cases op with
      | write w =>
          have hcapw : (audio_callback st w).capacity = st.capacity := rfl
          have h := ih (audio_callback st w) (S ++ effTail st.capacity w)
            (ringInv_callback st S w inv)
          rw [hcapw] at h
          simpa [streamOf, writesOf, List.foldl_cons, applyAudioOp] using h
      | register cid =>
          have h := ih (register_consumer st cid) S (ringInv_register st S cid inv)
          simpa [streamOf, writesOf, List.foldl_cons, applyAudioOp, register_consumer] using h
      | read cid =>
          have hcapr : ((get_new_audio_chunks st cid).2).capacity = st.capacity := by
            unfold get_new_audio_chunks
            cases lookupC st.last_reads cid <;> simp only <;> split <;> rfl
          have h := ih ((get_new_audio_chunks st cid).2) S (ringInv_read st S cid inv)
          rw [hcapr] at h
          simpa [streamOf, writesOf, List.foldl_cons, applyAudioOp] using h

/-- C1: after any trace of writes, registrations and reads against the ring
audio buffer, a read by a consumer whose cursor stands at `c` returns exactly
the logical stream from position `max c (totalWritten - capacity)` onward —
the unread samples in write order, clipped to the most recent `capacity`
samples when the backlog exceeds (or exactly reaches) the capacity — and the
consumer's cursor is advanced to `totalWritten`. -/
theorem ring_buffer_read_correct (capacity : Nat) (hcap : 0 < capacity)
    (ops : List AudioOp) (cid c : Nat)
    (hc : lookupC (runAudio capacity ops).last_reads cid = some c) :
    (get_new_audio_chunks (runAudio capacity ops) cid).1
      = (audioStreamOf capacity ops).drop
          (max c ((audioStreamOf capacity ops).length - capacity)) ∧
    lookupC ((get_new_audio_chunks (runAudio capacity ops) cid).2).last_reads cid
      = some (audioStreamOf capacity ops).length := by
  obtain ⟨inv, hcapeq⟩ := ringInv_foldl (mkAudio capacity) [] ops (ringInv_mkAudio capacity hcap)
  simp only [List.nil_append] at inv
  have hs : streamOf ((mkAudio capacity).capacity) (writesOf ops) = audioStreamOf capacity ops := rfl
  rw [hs] at inv
  have := get_new_audio_spec (runAudio capacity ops) (audioStreamOf capacity ops) inv cid c hc
  rwa [show (runAudio capacity ops).capacity = capacity from hcapeq] at this

/-- Witness for C1: capacity 3, a single 5-sample write (so the clipped
backlog equals the capacity exactly), consumer 0 registered at cursor 0. -/
theorem ring_buffer_read_correct_witness :
    (0 : Nat) < 3 ∧
    lookupC (runAudio 3 [AudioOp.register 0, AudioOp.write [1, 2, 3, 4, 5]]).last_reads 0
      = some 0 ∧
    (get_new_audio_chunks (runAudio 3 [AudioOp.register 0, AudioOp.write [1, 2, 3, 4, 5]]) 0).1
      = (audioStreamOf 3 [AudioOp.register 0, AudioOp.write [1, 2, 3, 4, 5]]).drop
          (max 0 ((audioStreamOf 3 [AudioOp.register 0, AudioOp.write [1, 2, 3, 4, 5]]).length - 3)) ∧
    lookupC ((get_new_audio_chunks
        (runAudio 3 [AudioOp.register 0, AudioOp.write [1, 2, 3, 4, 5]]) 0).2).last_reads 0
      = some (audioStreamOf 3 [AudioOp.register 0, AudioOp.write [1, 2, 3, 4, 5]]).length :=
  ⟨by decide, by decide,
    ring_buffer_read_correct 3 (by decide) [AudioOp.register 0, AudioOp.write [1, 2, 3, 4, 5]]
      0 0 (by decide)⟩

/-- C10: a read with a consumer id that was never registered returns the
empty sample list and leaves the whole buffer state (ring contents, write
index, `total_written`, and every cursor) unchanged. -/
theorem unregistered_read_noop (st : AudioStream) (cid : Nat)
    (h : lookupC st.last_reads cid = none) :
    get_new_audio_chunks st cid = ([], st) := by
  unfold get_new_audio_chunks
  rw [h]

/-- Witness for C10: a buffer that has data and one registered consumer, read
with the unregistered id 5. -/
theorem unregistered_read_noop_witness :
    lookupC (runAudio 3 [AudioOp.register 0, AudioOp.write [1, 2]]).last_reads 5 = none ∧
    get_new_audio_chunks (runAudio 3 [AudioOp.register 0, AudioOp.write [1, 2]]) 5
      = ([], runAudio 3 [AudioOp.register 0, AudioOp.write [1, 2]]) :=
  ⟨by decide, unregistered_read_noop _ 5 (by decide)⟩

/-! ### Streaming transcriber (`src/audio/google_transcriber.py`) -/

/-- Silence frame length while muted, in milliseconds (`MUTE_FILL_MS`). -/
def MUTE_FILL_MS : Nat := 100

/-- The fixed all-zero byte frame substituted while listening is disabled:
the Python source builds it once per RPC as
`b"\x00" * int(samplerate * MUTE_FILL_MS / 1000 * 2)` (16-bit mono PCM);
the products and the exact division happen in floats and the single `int()`
truncation at the end is the final natural division here. -/
def silenceFrame (samplerate : Nat) : List Nat :=
  List.replicate (samplerate * MUTE_FILL_MS * 2 / 1000) 0

/-- `GoogleStreamingTranscriber._audio_iterator`: each chunk yielded by the
ring-buffer byte generator is passed through when `listening_enabled` holds
at yield time, otherwise the fixed silence frame is yielded in its place.
A trace pairs every generator yield with the `listening_enabled` value read
at that moment. -/
def audio_iterator (samplerate : Nat) (events : List (Bool × List Nat)) :
    List (List Nat) :=
  events.map (fun ev => if ev.1 then ev.2 else silenceFrame samplerate)

/-- The subset of `grpc.StatusCode` values relevant to the transcriber
(every code the worker can observe, including the one the spec names). -/
inductive StatusCode where
  | OK
  | CANCELLED
  | UNKNOWN
  | INVALID_ARGUMENT
  | DEADLINE_EXCEEDED
  | NOT_FOUND
  | ALREADY_EXISTS
  | PERMISSION_DENIED
  | RESOURCE_EXHAUSTED
  | FAILED_PRECONDITION
  | ABORTED
  | OUT_OF_RANGE
  | UNIMPLEMENTED
  | INTERNAL
  | UNAVAILABLE
  | DATA_LOSS
  | UNAUTHENTICATED
  deriving DecidableEq

/-- `_RETRYABLE`: the tuple of status codes treated as transient
interruptions (INTERNAL, UNAVAILABLE, CANCELLED, DEADLINE_EXCEEDED). -/
def RETRYABLE : List StatusCode :=
  [StatusCode.INTERNAL, StatusCode.UNAVAILABLE, StatusCode.CANCELLED,
    StatusCode.DEADLINE_EXCEEDED]

/-- Membership test `err.code() in _RETRYABLE`. -/
def isRetryable (c : StatusCode) : Bool := RETRYABLE.contains c

/-- One observable event of the worker loop `_transcribe_loop`: a server
response handed to `_handle_response` (after which the back-off counter is
re-created as `itertools.count(0)`), an `OutOfRange` session expiration
(stream reopened, counter untouched), or a `grpc.RpcError` carrying a status
code. -/
inductive STTEvent where
  | response
  | outOfRange
  | rpcError (code : StatusCode)

/-- `_transcribe_loop` folded over a script of events with the current value
`k` of the `itertools.count` back-off counter (shutdown never signalled
during the script): returns the list of `min(2 ** next(backoff), 30)` delays
slept before each reconnect, and whether the worker terminated permanently
(a non-retryable `RpcError` breaks the loop). -/
def sttRun : List STTEvent → Nat → List Nat × Bool
  | [], _ => ([], false)
  | STTEvent.response :: es, _ => sttRun es 0
  | STTEvent.outOfRange :: es, k => sttRun es k
  | STTEvent.rpcError c :: es, k =>
      if isRetryable c then
        ((min (2 ^ k) 30) :: (sttRun es (k + 1)).1, (sttRun es (k + 1)).2)
      else ([], true)

theorem audio_iterator_length (samplerate : Nat) (events : List (Bool × List Nat)) :
    (audio_iterator samplerate events).length = events.length := by
  simp [audio_iterator]

theorem audio_iterator_all_muted (samplerate : Nat) (events : List (Bool × List Nat))
    (h : ∀ p ∈ events, p.1 = false) :
    audio_iterator samplerate events
      = List.replicate events.length (silenceFrame samplerate) := by
  induction events with
  | nil => rfl
  | cons ev evs ih =>
      have h0 : ev.1 = false := h ev (List.mem_cons_self ev evs)
      have ih2 := ih (fun p hp => h p (List.mem_cons_of_mem ev hp))
      show (if ev.1 = true then ev.2 else silenceFrame samplerate) ::
          audio_iterator samplerate evs
        = List.replicate (ev :: evs).length (silenceFrame samplerate)
      rw [h0, List.length_cons, List.replicate_succ, ih2]
      simp

/-- C2: while `listening_enabled` is false, every item the audio iterator
yields is the fixed-length all-zero silence frame; consequently two traces
that agree on the listening flags (all muted) and differ arbitrarily in the
captured audio feed identical byte sequences to the recognition session. -/
theorem muted_iterator_silence (samplerate : Nat) :
    (∀ (events : List (Bool × List Nat)) (i : Nat), i < events.length →
        (events.getD i (true, [])).1 = false →
        (audio_iterator samplerate events).getD i []
          = List.replicate (samplerate * MUTE_FILL_MS * 2 / 1000) 0) ∧
    (∀ ev1 ev2 : List (Bool × List Nat), ev1.length = ev2.length →
        (∀ p ∈ ev1, p.1 = false) → (∀ p ∈ ev2, p.1 = false) →
        audio_iterator samplerate ev1 = audio_iterator samplerate ev2) := by
  constructor
  · intro events i hi hmut
    have hlen : i < (audio_iterator samplerate events).length := by
      rwa [audio_iterator_length]
    rw [List.getD_eq_getElem?_getD, List.getElem?_eq_getElem hlen]
    simp only [audio_iterator, List.getElem_map, Option.getD_some]
    rw [List.getD_eq_getElem?_getD, List.getElem?_eq_getElem hi] at hmut
    simp only [Option.getD_some] at hmut
    rw [hmut]
    rfl
  · intro ev1 ev2 hlen h1 h2
    rw [audio_iterator_all_muted samplerate ev1 h1,
      audio_iterator_all_muted samplerate ev2 h2, hlen]

/-- Witness for C2: the muted yield of a trace carrying real audio bytes is
the all-zero frame, and two muted traces with different audio agree. -/
theorem muted_iterator_silence_witness :
    (0 : Nat) < ([((false : Bool), [7, 7, 7])] : List (Bool × List Nat)).length ∧
    (audio_iterator 16000 [((false : Bool), [7, 7, 7])]).getD 0 []
      = List.replicate (16000 * MUTE_FILL_MS * 2 / 1000) 0 ∧
    audio_iterator 16000 [((false : Bool), [7, 7, 7])]
      = audio_iterator 16000 [((false : Bool), [9])] :=
  ⟨by decide,
    (muted_iterator_silence 16000).1 [((false : Bool), [7, 7, 7])] 0 (by decide) (by decide),
    (muted_iterator_silence 16000).2 [((false : Bool), [7, 7, 7])] [((false : Bool), [9])]
      (by decide) (by decide) (by decide)⟩

theorem sttRun_retry_chain (cs : List StatusCode) (hret : ∀ c ∈ cs, isRetryable c = true) :
    ∀ k, (sttRun (cs.map STTEvent.rpcError) k).1
      = (List.range cs.length).map (fun i => min (2 ^ (k + i)) 30) := by
  induction cs with
  | nil => intro k; rfl
  | cons c cs ih =>
      intro k
      have hc : isRetryable c = true := hret c (List.mem_cons_self c cs)
      simp only [List.map_cons, sttRun, hc, if_pos]
      rw [ih (fun x hx => hret x (List.mem_cons_of_mem c hx)) (k + 1)]
      simp only [List.length_cons, List.range_succ_eq_map, List.map_cons, List.map_map]
      congr 1
      apply List.map_congr_left
      intro i _
      simp only [Function.comp_apply]
      congr 2
      omega

/-- C3: a script of `N` consecutive retryable failures with no successfully
processed response in between makes the worker sleep exactly
`min(2^0,30), min(2^1,30), ..., min(2^(N-1),30)` seconds before the
successive reconnects, and any processed response resets the back-off
counter to zero, so the next retryable failure waits `min(2^0,30)` again. -/
theorem backoff_sequence (cs : List StatusCode) (hret : ∀ c ∈ cs, isRetryable c = true) :
    (sttRun (cs.map STTEvent.rpcError) 0).1
      = (List.range cs.length).map (fun i => min (2 ^ i) 30) ∧
    (∀ (es : List STTEvent) (k : Nat), sttRun (STTEvent.response :: es) k = sttRun es 0) := by
  constructor
  · rw [sttRun_retry_chain cs hret 0]
    apply List.map_congr_left
    intro i _
    rw [Nat.zero_add]
  · intro es k
    rfl

/-- Witness for C3: six consecutive UNAVAILABLE failures sleep
1, 2, 4, 8, 16 and then the 30-second cap. -/
theorem backoff_sequence_witness :
    (∀ c ∈ List.replicate 6 StatusCode.UNAVAILABLE, isRetryable c = true) ∧
    (sttRun ((List.replicate 6 StatusCode.UNAVAILABLE).map STTEvent.rpcError) 0).1
      = [1, 2, 4, 8, 16, 30] := by
  refine ⟨by decide, ?_⟩
  rw [(backoff_sequence (List.replicate 6 StatusCode.UNAVAILABLE) (by decide)).1]
  decide

/-- Counterexample to C4 as stated: the code classifies INTERNAL (13) as
retryable and RESOURCE_EXHAUSTED (8) as non-retryable, while the claim names
resource-exhaustion instead of INTERNAL in the retryable set. -/
theorem retryable_set_cex :
    isRetryable StatusCode.RESOURCE_EXHAUSTED = false ∧
    isRetryable StatusCode.INTERNAL = true := by decide

/-- C4 amended: an RPC error is classified retryable iff its status code is
one of INTERNAL, UNAVAILABLE, CANCELLED, DEADLINE_EXCEEDED; on any other
code the worker breaks out of its loop permanently, sleeping no further
back-off delays. -/
theorem retryable_classification :
    (∀ c : StatusCode, isRetryable c = true ↔
      (c = StatusCode.INTERNAL ∨ c = StatusCode.UNAVAILABLE ∨
        c = StatusCode.CANCELLED ∨ c = StatusCode.DEADLINE_EXCEEDED)) ∧
    (∀ (c : StatusCode) (es : List STTEvent) (k : Nat), isRetryable c = false →
        sttRun (STTEvent.rpcError c :: es) k = ([], true)) := by
  constructor
  · intro c
    cases c <;> simp [isRetryable, RETRYABLE]
  · intro c es k h
    simp [sttRun, h]

/-- Witness for C4 (amended): an UNKNOWN error terminates the worker at once
with no delays, regardless of the rest of the script. -/
theorem retryable_classification_witness :
    isRetryable StatusCode.UNKNOWN = false ∧
    sttRun [STTEvent.rpcError StatusCode.UNKNOWN, STTEvent.response] 0 = ([], true) :=
  ⟨by decide, retryable_classification.2 StatusCode.UNKNOWN [STTEvent.response] 0 (by decide)⟩

/-! ### Emotion span tracker (`src/video/emotion_detector.py`) -/

/-- Python `round(x)` on an exact rational value: nearest integer, ties to
even (bankers rounding). -/
def roundHalfEven (q : ℚ) : ℤ :=
  if q - (⌊q⌋ : ℚ) < 1 / 2 then ⌊q⌋
  else if (1 : ℚ) / 2 < q - (⌊q⌋ : ℚ) then ⌊q⌋ + 1
  else if ⌊q⌋ % 2 = 0 then ⌊q⌋ else ⌊q⌋ + 1

/-- Python `round(x, 2)`: rounding a duration to hundredths of a second. -/
def round2 (q : ℚ) : ℚ := (roundHalfEven (q * 100) : ℚ) / 100

/-- Mutable span state of `EmotionDetector`: the open span label
(`current_emotion`, `None` before the first sample) and its start time, the
short-term `(label, rounded duration)` buffer cleared by resets, and the
permanent `(label, start, end)` history. -/
structure EmotionState where
  current_emotion : Option String
  span_start : ℚ
  emo_spans : List (String × ℚ)
  history_spans : List (String × ℚ × ℚ)

/-- Tracker state as set up by `__init__` / `start()` at time `t0`. -/
def emoInit (t0 : ℚ) : EmotionState :=
  { current_emotion := none, span_start := t0, emo_spans := [], history_spans := [] }

/-- `EmotionDetector._detect_emotion`: argument `none` stands for
`self._model is None` (label "no-face"); otherwise the argument is the
outcome of `detect_emotion_for_single_frame(frame)` — either a raised
exception (`Except.error`) or the list of detected `emo_label`s, of which
the head is used, with "no-face" on an empty list. The Python body contains
no exception handler, so an error outcome passes through. -/
def detect_emotion (model_outcome : Option (Except Unit (List String))) :
    Except Unit String :=
  match model_outcome with
  | none => Except.ok "no-face"
  | some (Except.error e) => Except.error e
  | some (Except.ok dets) => Except.ok (dets.headD "no-face")

/-- One sampling step of `EmotionDetector._run` (the label-transition logic)
at time `now` with classified label `label`: on a label change the previous
open span (if any) is closed into both the short-term buffer (duration
rounded to hundredths) and the history, and a new span opens at `now`. -/
def on_sample (st : EmotionState) (label : String) (now : ℚ) : EmotionState :=
  if some label = st.current_emotion then st
  else
    let closed :=
      match st.current_emotion with
      | none => st
      | some cur =>
          { st with
              emo_spans := st.emo_spans ++ [(cur, round2 (now - st.span_start))]
              history_spans := st.history_spans ++ [(cur, st.span_start, now)] }
    { closed with current_emotion := some label, span_start := now }

/-- One full iteration of the `_run` sampling loop after frame capture: the
classifier outcome flows through `_detect_emotion`; with no handler around
the call, an exception aborts the iteration (killing the sampling thread)
instead of updating the span state. -/
def run_step (st : EmotionState) (outcome : Except Unit (List String)) (now : ℚ) :
    Except Unit EmotionState :=
  match detect_emotion (some outcome) with
  | Except.error e => Except.error e
  | Except.ok label => Except.ok (on_sample st label now)

/-- `EmotionDetector.get_summary_and_reset` at time `now`: flush the
in-flight span into both buffers (advancing `span_start` to `now` without
closing the emotional state), return the short-term buffer and clear it. -/
def get_summary_and_reset (st : EmotionState) (now : ℚ) :
    List (String × ℚ) × EmotionState :=
  match st.current_emotion with
  | some cur =>
      (st.emo_spans ++ [(cur, round2 (now - st.span_start))],
        { st with
            emo_spans := []
            history_spans := st.history_spans ++ [(cur, st.span_start, now)]
            span_start := now })
  | none => (st.emo_spans, { st with emo_spans := [] })

/-- Backwards traversal of `_history_spans` inside `get_recent_summary`
(argument is the history already reversed, latest span first): stop at the
first span ending at or before the cutoff, collect positive rounded
overlaps in traversal order. -/
def recent_collect (cutoff : ℚ) : List (String × ℚ × ℚ) → List (String × ℚ)
  | [] => []
  | (label, span) :: rest =>
      if span.2 ≤ cutoff then []
      else
        (if 0 < round2 (span.2 - max span.1 cutoff) then
            [(label, round2 (span.2 - max span.1 cutoff))]
          else []) ++ recent_collect cutoff rest

/-- `EmotionDetector.get_recent_summary(last_seconds)` evaluated at time
`now`: backwards history traversal, then the open span is appended to the
result list, and the whole list is reversed before being returned. -/
def get_recent_summary (st : EmotionState) (now last_seconds : ℚ) :
    List (String × ℚ) :=
  let cutoff := now - last_seconds
  let result := recent_collect cutoff st.history_spans.reverse
  let result := result ++
    (match st.current_emotion with
      | some cur =>
          if 0 < round2 (now - max st.span_start cutoff) then
            [(cur, round2 (now - max st.span_start cutoff))]
          else []
      | none => [])
  result.reverse

/-- Counterexample to C5 as stated: a raised classifier exception is not
mapped to a no-detection label — `_detect_emotion` has no handler, so the
error propagates out of the sampling step (and would kill the `_run`
thread) instead of producing an updated tracker state. -/
theorem classifier_exception_cex :
    run_step (emoInit 0) (Except.error ()) 1 = Except.error () ∧
    detect_emotion (some (Except.error ())) ≠ Except.ok "no-face" := by
  exact ⟨rfl, by simp [detect_emotion]⟩

/-- C5 amended: a classifier exception propagates out of `_detect_emotion`
unchanged and aborts the sampling iteration, while a classifier success is
never fatal — an empty detection list is mapped to the "no-face" label and
otherwise the first detection's label is used to update the span state. -/
theorem detect_emotion_error_propagates :
    (∀ (st : EmotionState) (e : Unit) (now : ℚ),
        run_step st (Except.error e) now = Except.error e) ∧
    (∀ (st : EmotionState) (dets : List String) (now : ℚ),
        run_step st (Except.ok dets) now
          = Except.ok (on_sample st (dets.headD "no-face") now)) := by
  exact ⟨fun st e now => rfl, fun st dets now => rfl⟩

theorem roundHalfEven_intCast (k : ℤ) : roundHalfEven (k : ℚ) = k := by
  unfold roundHalfEven
  rw [Int.floor_intCast]
  rw [if_pos]
  norm_num

theorem round2_aligned (k : ℤ) : round2 ((k : ℚ) / 100) = (k : ℚ) / 100 := by
  unfold round2
  rw [show ((k : ℚ) / 100) * 100 = (k : ℚ) from by field_simp, roundHalfEven_intCast]

theorem roundHalfEven_nonpos (q : ℚ) (h : q ≤ 0) : roundHalfEven q ≤ 0 := by
  unfold roundHalfEven
  have hfq : (⌊q⌋ : ℚ) ≤ q := Int.floor_le q
  have hf : ⌊q⌋ ≤ 0 := by
    have : (⌊q⌋ : ℚ) ≤ 0 := le_trans hfq h
    exact_mod_cast this
  split_ifs with h1 h2 h3
  · exact hf
  · have hlt : (⌊q⌋ : ℚ) < 0 := by linarith
    have : ⌊q⌋ < 0 := by exact_mod_cast hlt
    omega
  · exact hf
  · have hle : (⌊q⌋ : ℚ) < 0 := by linarith
    have : ⌊q⌋ < 0 := by exact_mod_cast hle
    omega

theorem round2_nonpos (q : ℚ) (h : q ≤ 0) : round2 q ≤ 0 := by
  unfold round2
  have h1 : roundHalfEven (q * 100) ≤ 0 := roundHalfEven_nonpos (q * 100) (by linarith)
  have h2 : ((roundHalfEven (q * 100)) : ℚ) ≤ 0 := by exact_mod_cast h1
  linarith

theorem recent_collect_filter (cutoff : ℚ) (l : List (String × ℚ × ℚ))
    (hsort : List.Pairwise (fun a b : String × ℚ × ℚ => b.2.2 ≤ a.2.2) l) :
    recent_collect cutoff l
      = (l.filter (fun x => decide (0 < round2 (x.2.2 - max x.2.1 cutoff)))).map
          (fun x => (x.1, round2 (x.2.2 - max x.2.1 cutoff))) := by
  induction l with
  | nil => rfl
  | cons hd tl ih =>
      obtain ⟨label, span⟩ := hd
      obtain ⟨hrel, htl⟩ := List.pairwise_cons.mp hsort
      rw [List.filter_cons]
      by_cases hend : span.2 ≤ cutoff
      · rw [recent_collect, if_pos hend]
        have hhd : ¬ (0 < round2 (span.2 - max span.1 cutoff)) := by
          have hle : span.2 - max span.1 cutoff ≤ 0 := by
            have := le_max_right span.1 cutoff
            linarith
          have := round2_nonpos _ hle
          linarith
        rw [if_neg (by simpa [decide_eq_true_eq] using hhd)]
        have htlnil : tl.filter (fun x => decide (0 < round2 (x.2.2 - max x.2.1 cutoff)))
            = [] := by
          rw [List.filter_eq_nil_iff]
          intro x hx
          have hxend : x.2.2 ≤ span.2 := hrel x hx
          have hle : x.2.2 - max x.2.1 cutoff ≤ 0 := by
            have := le_max_right x.2.1 cutoff
            linarith
          have := round2_nonpos _ hle
          simp only [decide_eq_true_eq]
          intro hc
          linarith
        rw [htlnil]
        rfl
      · push_neg at hend
        rw [recent_collect, if_neg (by linarith)]
        by_cases hpos : 0 < round2 (span.2 - max span.1 cutoff)
        · rw [if_pos hpos, if_pos (by simpa [decide_eq_true_eq] using hpos),
            List.map_cons, ih htl]
          rfl
        · rw [if_neg hpos, if_neg (by simpa [decide_eq_true_eq] using hpos),
            List.nil_append, ih htl]

/-- Counterexample to C6 as stated: with one closed historical span
("sad", 0, 10) and an open span "happy" started at 10, queried at time 12
with a 5-second window, the code returns the in-progress span FIRST —
`[("happy", 2), ("sad", 3)]` — not last as the claim requires (the open
span is appended to the result list after the backwards history traversal
and before the final `result.reverse()`). -/
theorem recent_summary_order_cex :
    get_recent_summary
        { current_emotion := some "happy", span_start := 10, emo_spans := [],
          history_spans := [("sad", 0, 10)] } 12 5
      = [("happy", 2), ("sad", 3)] ∧
    ([("happy", (2 : ℚ)), ("sad", 3)] : List (String × ℚ))
      ≠ [("sad", 3), ("happy", 2)] := by
  constructor
  · norm_num [get_recent_summary, recent_collect, round2, roundHalfEven, max_def]
  · intro h
    simp at h

/-- C6 amended: on a time-ordered history, `get_recent_summary(w)` at time
`now` returns the pairs of exactly the spans whose overlap with
`[now - w, now]` rounds to a positive hundredth: the in-progress span comes
FIRST (when its rounded overlap is positive), followed by the historical
spans in chronological order; spans whose rounded overlap is zero (in
particular all spans ending at or before the cutoff) are omitted, and the
early termination of the backwards traversal drops no overlapping span. -/
theorem recent_summary_spec (st : EmotionState) (now w : ℚ)
    (hsort : List.Pairwise (fun a b : String × ℚ × ℚ => a.2.2 ≤ b.2.2) st.history_spans) :
    get_recent_summary st now w
      = (match st.current_emotion with
          | some cur =>
              if 0 < round2 (now - max st.span_start (now - w)) then
                [(cur, round2 (now - max st.span_start (now - w)))]
              else []
          | none => []) ++
        ((st.history_spans.filter
            (fun x => decide (0 < round2 (x.2.2 - max x.2.1 (now - w))))).map
          (fun x => (x.1, round2 (x.2.2 - max x.2.1 (now - w))))) := by
  simp only [get_recent_summary]
  rw [recent_collect_filter (now - w) st.history_spans.reverse
      (List.pairwise_reverse.mpr hsort),
    List.filter_reverse, List.map_reverse, List.reverse_append, List.reverse_reverse]
  congr 1
  cases st.current_emotion with
  | none => rfl
  | some cur =>
      show (if 0 < round2 (now - max st.span_start (now - w)) then
          [(cur, round2 (now - max st.span_start (now - w)))] else []).reverse
        = if 0 < round2 (now - max st.span_start (now - w)) then
          [(cur, round2 (now - max st.span_start (now - w)))] else []
      by_cases hpos : 0 < round2 (now - max st.span_start (now - w))
      · rw [if_pos hpos]
        exact List.reverse_singleton _
      · rw [if_neg hpos]
        rfl

/-- Witness for C6 (amended) at the counterexample state: the sorted-history
hypothesis holds and the returned list is the open span first, then the
historical span. -/
theorem recent_summary_spec_witness :
    List.Pairwise (fun a b : String × ℚ × ℚ => a.2.2 ≤ b.2.2)
      ([("sad", 0, 10)] : List (String × ℚ × ℚ)) ∧
    get_recent_summary
        { current_emotion := some "happy", span_start := 10, emo_spans := [],
          history_spans := [("sad", 0, 10)] } 12 5
      = [("happy", 2), ("sad", 3)] := by
  constructor
  · simp
  · rw [recent_summary_spec
      { current_emotion := some "happy", span_start := 10, emo_spans := [],
        history_spans := [("sad", 0, 10)] } 12 5 (by simp)]
    norm_num [round2, roundHalfEven, List.filter_cons]

/-- A reporting-relevant event in the tracker's lifetime: a classified
sample handled by the `_run` transition logic, or a `get_summary_and_reset`
call, each carrying its timestamp. -/
inductive EmoEvent where
  | sample (label : String) (t : ℚ)
  | flush (t : ℚ)

/-- Fold the tracker state over a list of events, accumulating the sum of
all durations returned across the `get_summary_and_reset` calls. -/
def execEmo : EmotionState → List EmoEvent → ℚ × EmotionState
  | st, [] => (0, st)
  | st, EmoEvent.sample l t :: es => execEmo (on_sample st l t) es
  | st, EmoEvent.flush t :: es =>
      ((((get_summary_and_reset st t).1.map Prod.snd).sum)
          + (execEmo (get_summary_and_reset st t).2 es).1,
        (execEmo (get_summary_and_reset st t).2 es).2)

/-- A timestamp lying exactly on a hundredth of a second. -/
def aligned (q : ℚ) : Prop := ∃ k : ℤ, q = (k : ℚ) / 100

/-- An event whose timestamp lies on a hundredth of a second. -/
def alignedEvent : EmoEvent → Prop
  | EmoEvent.sample _ t => aligned t
  | EmoEvent.flush t => aligned t

/-- Sum of the durations sitting in the short-term buffer. -/
def pendingSum (st : EmotionState) : ℚ := (st.emo_spans.map Prod.snd).sum

theorem aligned_sub (a b : ℚ) (ha : aligned a) (hb : aligned b) : aligned (a - b) := by
  obtain ⟨k1, hk1⟩ := ha
  obtain ⟨k2, hk2⟩ := hb
  exact ⟨k1 - k2, by rw [hk1, hk2]; push_cast; ring⟩

theorem round2_exact (q : ℚ) (h : aligned q) : round2 q = q := by
  obtain ⟨k, hk⟩ := h
  rw [hk, round2_aligned]

theorem execEmo_phi (es : List EmoEvent) :
    ∀ st : EmotionState, st.current_emotion.isSome = true → aligned st.span_start →
    (∀ e ∈ es, alignedEvent e) →
    (execEmo st es).1 + pendingSum (execEmo st es).2 - (execEmo st es).2.span_start
      = pendingSum st - st.span_start ∧
    (execEmo st es).2.current_emotion.isSome = true ∧
    aligned (execEmo st es).2.span_start := by
  induction es with
  | nil =>
      intro st hs ha _
      exact ⟨by show (0 : ℚ) + pendingSum st - st.span_start = _; ring, hs, ha⟩
  | cons e es ih =>
      intro st hs ha hev
      obtain ⟨cur, hcur⟩ := Option.isSome_iff_exists.mp hs
      have hevtl : ∀ x ∈ es, alignedEvent x :=
        fun x hx => hev x (List.mem_cons_of_mem e hx)
      cases e with
      | sample l t =>
          have hat : aligned t := hev _ (List.mem_cons_self _ _)
          have hstep : execEmo st (EmoEvent.sample l t :: es)
              = execEmo (on_sample st l t) es := rfl
          rw [hstep]
          by_cases hsame : some l = st.current_emotion
          · rw [show on_sample st l t = st from by rw [on_sample, if_pos hsame]]
            exact ih st hs ha hevtl
          · have hst1 : on_sample st l t
                = { current_emotion := some l, span_start := t,
                    emo_spans := st.emo_spans ++ [(cur, round2 (t - st.span_start))],
                    history_spans := st.history_spans ++ [(cur, st.span_start, t)] } := by
              rw [on_sample, if_neg hsame, hcur]
            rw [hst1]
            have h := ih (⟨some l, t,
                st.emo_spans ++ [(cur, round2 (t - st.span_start))],
                st.history_spans ++ [(cur, st.span_start, t)]⟩ : EmotionState)
              rfl hat hevtl
            refine ⟨?_, h.2.1, h.2.2⟩
            rw [h.1]
            have hr : round2 (t - st.span_start) = t - st.span_start :=
              round2_exact _ (aligned_sub t st.span_start hat ha)
            simp only [pendingSum, List.map_append, List.sum_append, List.map_cons,
              List.map_nil, List.sum_cons, List.sum_nil]
            rw [hr]
            ring
      | flush t =>
          have hat : aligned t := hev _ (List.mem_cons_self _ _)
          have hstep : execEmo st (EmoEvent.flush t :: es)
              = (((get_summary_and_reset st t).1.map Prod.snd).sum
                  + (execEmo (get_summary_and_reset st t).2 es).1,
                (execEmo (get_summary_and_reset st t).2 es).2) := rfl
          rw [hstep]
          have hout : get_summary_and_reset st t
              = (st.emo_spans ++ [(cur, round2 (t - st.span_start))],
                  { current_emotion := st.current_emotion, span_start := t,
                    emo_spans := [],
                    history_spans := st.history_spans ++ [(cur, st.span_start, t)] }) := by
            rw [get_summary_and_reset, hcur]
          rw [hout]
          have h := ih (⟨st.current_emotion, t, [],
              st.history_spans ++ [(cur, st.span_start, t)]⟩ : EmotionState)
            (by rw [hcur]; rfl) hat hevtl
          refine ⟨?_, h.2.1, h.2.2⟩
          have hmid := h.1
          have hr : round2 (t - st.span_start) = t - st.span_start :=
            round2_exact _ (aligned_sub t st.span_start hat ha)
          simp only [pendingSum, List.map_append, List.sum_append, List.map_cons,
            List.map_nil, List.sum_cons, List.sum_nil] at hmid ⊢
          rw [hr]
          linarith [hmid]

theorem execEmo_append (es1 es2 : List EmoEvent) : ∀ st : EmotionState,
    execEmo st (es1 ++ es2)
      = ((execEmo st es1).1 + (execEmo (execEmo st es1).2 es2).1,
          (execEmo (execEmo st es1).2 es2).2) := by
  induction es1 with
  | nil =>
      intro st
      show execEmo st es2 = ((0:ℚ) + (execEmo st es2).1, (execEmo st es2).2)
      rw [zero_add]
  | cons e es1 ih =>
      intro st
      cases e with
      | sample l t =>
          show execEmo (on_sample st l t) (es1 ++ es2) = _
          rw [ih (on_sample st l t)]
          rfl
      | flush t =>
          have h2 : execEmo st ((EmoEvent.flush t :: es1) ++ es2)
              = (((get_summary_and_reset st t).1.map Prod.snd).sum
                  + (execEmo (get_summary_and_reset st t).2 (es1 ++ es2)).1,
                (execEmo (get_summary_and_reset st t).2 (es1 ++ es2)).2) := rfl
          rw [h2, ih (get_summary_and_reset st t).2]
          have h1 : execEmo st (EmoEvent.flush t :: es1)
              = (((get_summary_and_reset st t).1.map Prod.snd).sum
                  + (execEmo (get_summary_and_reset st t).2 es1).1,
                (execEmo (get_summary_and_reset st t).2 es1).2) := rfl
          rw [h1]
          show (_ + (_ + _), _) = _
          rw [add_assoc]

/-- Counterexample to C7 as stated: a single span tracked from time 0 and
flushed at time 1/250 s (= 0.004 s) reports `round(0.004, 2) = 0.0` as its
duration, so the sum of all returned durations is 0 while the elapsed
tracked time is 1/250 s — the per-span rounding to hundredths makes the
returned-duration sum differ from the exact elapsed time. -/
theorem summary_sum_cex :
    (execEmo (emoInit 0) [EmoEvent.sample "happy" 0, EmoEvent.flush (1 / 250)]).1 = 0 ∧
    (1 / 250 : ℚ) - 0 ≠ 0 := by
  constructor
  · have hs1 : on_sample (emoInit 0) "happy" 0
        = { current_emotion := some "happy", span_start := 0, emo_spans := [],
            history_spans := [] } := by
      rw [on_sample, if_neg (by simp [emoInit])]
      rfl
    have hstep : execEmo (emoInit 0) [EmoEvent.sample "happy" 0, EmoEvent.flush (1 / 250)]
        = execEmo (on_sample (emoInit 0) "happy" 0) [EmoEvent.flush (1 / 250)] := rfl
    rw [hstep, hs1]
    show ((((get_summary_and_reset
        { current_emotion := some "happy", span_start := 0, emo_spans := [],
          history_spans := [] } (1 / 250)).1.map Prod.snd).sum) + (0 : ℚ)) = 0
    rw [get_summary_and_reset]
    show ((([] ++ [("happy", round2 ((1:ℚ) / 250 - 0))]).map Prod.snd).sum) + (0 : ℚ) = 0
    norm_num [round2, roundHalfEven]
  · norm_num

/-- C7 amended: when every sample and reset timestamp lies on a hundredth of
a second (so that the per-span `round(·, 2)` is exact), the durations
returned across repeated `get_summary_and_reset` calls sum to exactly the
elapsed tracked time from the first sample to the final reset: span
boundaries are shared (each transition or flush closes at `now` and reopens
at the same `now`), so the spans partition the tracked timeline with no
gaps and no overlaps; on arbitrary timestamps the sum differs from the
elapsed time only by the per-span rounding, as the counterexample shows. -/
theorem summary_sum_partition (tinit : ℚ) (l : String) (t0 : ℚ) (es : List EmoEvent)
    (T : ℚ) (ht0 : aligned t0) (hT : aligned T) (hes : ∀ e ∈ es, alignedEvent e) :
    (execEmo (emoInit tinit) (EmoEvent.sample l t0 :: (es ++ [EmoEvent.flush T]))).1
      = T - t0 := by
  have hst1 : on_sample (emoInit tinit) l t0
      = { current_emotion := some l, span_start := t0, emo_spans := [],
          history_spans := [] } := by
    rw [on_sample, if_neg (by simp [emoInit])]
    rfl
  have hstep : execEmo (emoInit tinit) (EmoEvent.sample l t0 :: (es ++ [EmoEvent.flush T]))
      = execEmo (on_sample (emoInit tinit) l t0) (es ++ [EmoEvent.flush T]) := rfl
  rw [hstep, hst1, execEmo_append]
  obtain ⟨hphi, hsome, halign⟩ := execEmo_phi es
    { current_emotion := some l, span_start := t0, emo_spans := [], history_spans := [] }
    rfl ht0 hes
  set A := execEmo
    { current_emotion := some l, span_start := t0, emo_spans := [], history_spans := [] }
    es with hA
  obtain ⟨cur2, hcur2⟩ := Option.isSome_iff_exists.mp hsome
  have hout : get_summary_and_reset A.2 T
      = (A.2.emo_spans ++ [(cur2, round2 (T - A.2.span_start))],
          { current_emotion := A.2.current_emotion, span_start := T,
            emo_spans := [],
            history_spans := A.2.history_spans ++ [(cur2, A.2.span_start, T)] }) := by
    rw [get_summary_and_reset, hcur2]
  show A.1 + (((get_summary_and_reset A.2 T).1.map Prod.snd).sum
      + (execEmo (get_summary_and_reset A.2 T).2 []).1) = T - t0
  rw [hout]
  show A.1 + ((((A.2.emo_spans ++ [(cur2, round2 (T - A.2.span_start))]).map Prod.snd).sum)
      + (0 : ℚ)) = T - t0
  have hr : round2 (T - A.2.span_start) = T - A.2.span_start :=
    round2_exact _ (aligned_sub T A.2.span_start hT halign)
  simp only [List.map_append, List.sum_append, List.map_cons, List.map_nil,
    List.sum_cons, List.sum_nil]
  rw [hr]
  have hphi2 : A.1 + pendingSum A.2 - A.2.span_start = 0 - t0 := by
    rw [hphi]
    simp [pendingSum]
  simp only [pendingSum] at hphi2
  linarith

/-- Witness for C7 (amended): the concrete hundredth-aligned trace with
spans "happy" `[0, 0.01)`, "sad" `[0.01, 0.07)`, "happy" `[0.07, 0.1]` and
an intermediate reset at `0.03` sums to the full elapsed `0.1` seconds. -/
theorem summary_sum_partition_witness :
    aligned 0 ∧ aligned (1 / 10) ∧
    (∀ e ∈ [EmoEvent.sample "sad" (1 / 100), EmoEvent.flush (3 / 100),
        EmoEvent.sample "happy" (7 / 100)], alignedEvent e) ∧
    (execEmo (emoInit 5)
        (EmoEvent.sample "happy" 0 ::
          ([EmoEvent.sample "sad" (1 / 100), EmoEvent.flush (3 / 100),
            EmoEvent.sample "happy" (7 / 100)] ++ [EmoEvent.flush (1 / 10)]))).1
      = 1 / 10 - 0 := by
  have hes : ∀ e ∈ [EmoEvent.sample "sad" (1 / 100), EmoEvent.flush (3 / 100),
      EmoEvent.sample "happy" (7 / 100)], alignedEvent e := by
    intro e he
    fin_cases he
    · exact ⟨1, by norm_num⟩
    · exact ⟨3, by norm_num⟩
    · exact ⟨7, by norm_num⟩
  exact ⟨⟨0, by norm_num⟩, ⟨10, by norm_num⟩, hes,
    summary_sum_partition 5 "happy" 0
      [EmoEvent.sample "sad" (1 / 100), EmoEvent.flush (3 / 100),
        EmoEvent.sample "happy" (7 / 100)] (1 / 10)
      ⟨0, by norm_num⟩ ⟨10, by norm_num⟩ hes⟩

/-! ### Turn-orchestration loop (`src/main.py`) -/

/-- A parsed Python JSON value (the result of a successful `json.loads`). -/
inductive PyJson where
  | null
  | bool (b : Bool)
  | num (n : ℤ)
  | str (s : String)
  | arr (xs : List PyJson)
  | obj (fields : List (String × PyJson))

/-- Python `dict.get(k, default)` on the fields of a JSON object. -/
def dictGet (fields : List (String × PyJson)) (k : String) (dflt : PyJson) : PyJson :=
  match fields.find? (fun p => p.1 == k) with
  | some p => p.2
  | none => dflt

/-- The Python exception the reply-parsing step can leak. -/
inductive PyError where
  | attributeError
  deriving DecidableEq

/-- The LLM-reply parsing step of the turn loop (`main.py`, step 6 fallback).
`loads` is the outcome of `json.loads(assistant_raw)`: `none` models a raised
`json.JSONDecodeError` — the only exception the `except` clause catches —
and `some v` the parsed value. On decode failure the raw text (stripped)
becomes the spoken message and the previous strategy is carried over into
the new `prev_turn_json`; on decode success the code calls `.get` on the
parsed value and `.strip()` on its message field, which raises an uncaught
`AttributeError` when the value is not a dict or its message field is not a
string. Returns the new `(assistant_msg, prev_turn_json)` pair, or the
exception that escapes the turn loop. -/
def parse_reply (prev_turn_json : List (String × PyJson)) (assistant_raw : String)
    (loads : Option PyJson) :
    Except PyError (String × List (String × PyJson)) :=
  match loads with
  | some (PyJson.obj fields) =>
      match dictGet fields "message" (PyJson.str "") with
      | PyJson.str s => Except.ok (s.trim, fields)
      | _ => Except.error PyError.attributeError
  | some _ => Except.error PyError.attributeError
  | none =>
      Except.ok (assistant_raw.trim,
        [("strategy", dictGet prev_turn_json "strategy" (PyJson.str "(unknown)")),
          ("message", PyJson.str assistant_raw.trim)])

/-- Counterexample to C8 as stated: the reply "42" is valid JSON but not an
object with `strategy`/`message` fields — `json.loads` succeeds with the
number 42, then `parsed.get(...)` raises an uncaught `AttributeError`, so
this malformed reply IS fatal to the turn loop instead of being recovered
with the raw text as message. -/
theorem parse_reply_cex :
    parse_reply
        [("strategy", PyJson.str "No strategy decided yet"),
          ("message", PyJson.str "hello")]
        "42" (some (PyJson.num 42))
      = Except.error PyError.attributeError := rfl

/-- C8 amended: a reply on which `json.loads` raises (not valid JSON at all)
is recovered locally without raising — the stripped raw text is used as the
spoken message and the previous turn's strategy is retained in the new
`prev_turn_json`; a reply that parses to a non-object JSON value, however,
raises an uncaught `AttributeError` and is fatal to the turn loop. -/
theorem parse_reply_decode_failure (prev : List (String × PyJson)) (raw : String)
    (strat : PyJson) (hs : dictGet prev "strategy" (PyJson.str "(unknown)") = strat) :
    (parse_reply prev raw none
        = Except.ok (raw.trim,
            [("strategy", strat), ("message", PyJson.str raw.trim)])) ∧
    (∃ newPrev, parse_reply prev raw none = Except.ok (raw.trim, newPrev) ∧
      dictGet newPrev "strategy" (PyJson.str "(unknown)") = strat ∧
      dictGet newPrev "message" (PyJson.str "") = PyJson.str raw.trim) := by
  constructor
  · rw [parse_reply, hs]
  · refine ⟨[("strategy", strat), ("message", PyJson.str raw.trim)], ?_, ?_, ?_⟩
    · rw [parse_reply, hs]
    · rfl
    · rfl

/-- Witness for C8 (amended): a non-JSON reply string with the running
`prev_turn_json` — the raw text becomes the message, the strategy survives. -/
theorem parse_reply_decode_failure_witness :
    dictGet [("strategy", PyJson.str "encourage"), ("message", PyJson.str "old")]
        "strategy" (PyJson.str "(unknown)") = PyJson.str "encourage" ∧
    parse_reply [("strategy", PyJson.str "encourage"), ("message", PyJson.str "old")]
        "plain text reply" none
      = Except.ok ("plain text reply".trim,
          [("strategy", PyJson.str "encourage"),
            ("message", PyJson.str "plain text reply".trim)]) :=
  ⟨rfl,
    (parse_reply_decode_failure
      [("strategy", PyJson.str "encourage"), ("message", PyJson.str "old")]
      "plain text reply" (PyJson.str "encourage") rfl).1⟩

/-- Python `int(x)` on a rational: truncation toward zero. -/
def pyInt (q : ℚ) : ℤ := if 0 ≤ q then ⌊q⌋ else -(⌊-q⌋)

/-- Idle threshold `IDLE_TIMEOUT` in seconds. -/
def IDLE_TIMEOUT : ℤ := 20

/-- The idle-injection slice of one orchestrator loop iteration (`main.py`,
steps 1-2): at the iteration top `idle_sec = int(now - last_activity)`; the
transcription queue is then polled with a 0.5 s timeout; when the poll comes
back empty and `idle_sec >= IDLE_TIMEOUT`, the sentinel `"[[IDLE]]"` input
is synthesized and `last_activity` is refreshed to the current time; an
empty poll below the threshold just continues the loop. Returns the input
the iteration proceeds with (`none` = continue) and the updated
`last_activity`. -/
def loop_step (last_activity : ℚ) (now : ℚ) (poll : Option String) :
    Option String × ℚ :=
  let idle_sec := pyInt (now - last_activity)
  match poll with
  | some u => (some u, last_activity)
  | none =>
      if idle_sec ≥ IDLE_TIMEOUT then (some "[[IDLE]]", now)
      else (none, last_activity)

/-- A run of consecutive loop iterations whose polls all come back empty, at
the given iteration times: the list of inputs produced and the final
`last_activity`. -/
def run_idle (last_activity : ℚ) : List ℚ → List (Option String) × ℚ
  | [] => ([], last_activity)
  | t :: ts =>
      ((loop_step last_activity t none).1 :: (run_idle (loop_step last_activity t none).2 ts).1,
        (run_idle (loop_step last_activity t none).2 ts).2)

/-- C9: when the poll is empty and the elapsed idle time reaches the
20-second threshold, exactly one `"[[IDLE]]"` sentinel is synthesized and
`last_activity` is refreshed to the current time; consequently every
subsequent empty poll within the following 20 seconds of the same idle
period injects nothing and leaves `last_activity` untouched — the injection
cannot re-fire until the threshold elapses again. -/
theorem idle_injection_once (la now : ℚ) (h20 : (20 : ℚ) ≤ now - la)
    (times : List ℚ) (hts : ∀ t ∈ times, now ≤ t ∧ t - now < 20) :
    loop_step la now none = (some "[[IDLE]]", now) ∧
    (run_idle now times).1 = List.replicate times.length none ∧
    (run_idle now times).2 = now := by
  constructor
  · have hidle : pyInt (now - la) ≥ IDLE_TIMEOUT := by
      rw [pyInt, if_pos (by linarith)]
      show (20 : ℤ) ≤ ⌊now - la⌋
      rw [Int.le_floor]
      exact_mod_cast h20
    show (if pyInt (now - la) ≥ IDLE_TIMEOUT then (some "[[IDLE]]", now) else (none, la))
        = (some "[[IDLE]]", now)
    rw [if_pos hidle]
  · induction times with
    | nil => exact ⟨rfl, rfl⟩
    | cons t ts ih =>
        obtain ⟨hle, hlt⟩ := hts t (List.mem_cons_self t ts)
        have hstep : loop_step now t none = (none, now) := by
          have hidle : ¬ (pyInt (t - now) ≥ IDLE_TIMEOUT) := by
            rw [pyInt, if_pos (by linarith)]
            show ¬ ((20 : ℤ) ≤ ⌊t - now⌋)
            rw [Int.le_floor]
            push_neg
            exact_mod_cast hlt
          show (if pyInt (t - now) ≥ IDLE_TIMEOUT then (some "[[IDLE]]", t) else (none, now))
              = (none, now)
          rw [if_neg hidle]
        have ihts := ih (fun x hx => hts x (List.mem_cons_of_mem t hx))
        constructor
        · show (loop_step now t none).1 :: (run_idle (loop_step now t none).2 ts).1
              = none :: List.replicate ts.length none
          rw [hstep]
          exact congrArg _ ihts.1
        · show (run_idle (loop_step now t none).2 ts).2 = now
          rw [hstep]
          exact ihts.2

/-- Witness for C9: with `last_activity = 0` an empty poll at `t = 21`
injects the sentinel once; the following empty polls at 21.5, 22 and 40.5
seconds (all within 20 s of the injection) inject nothing. -/
theorem idle_injection_once_witness :
    ((20 : ℚ) ≤ 21 - 0) ∧
    loop_step 0 21 none = (some "[[IDLE]]", 21) ∧
    (run_idle 21 [43 / 2, 22, 81 / 2]).1 = [none, none, none] ∧
    (run_idle 21 [43 / 2, 22, 81 / 2]).2 = 21 := by
  have h := idle_injection_once 0 21 (by norm_num) [43 / 2, 22, 81 / 2]
    (by
      intro t ht
      fin_cases ht
      · constructor <;> norm_num
      · constructor <;> norm_num
      · constructor <;> norm_num)
  exact ⟨by norm_num, h.1, by rw [h.2.1]; rfl, h.2.2⟩

end CrosswordHRI
